import Mathlib

/-!
Shallow embedding of `src/crates/sipmsg/src/headers/header.rs` (the SIP
header-value parsing engine) and proofs of its specification claims.

Bytes are modelled as `Nat` (always < 256 on real inputs; no arithmetic is
performed on them), byte slices as `List Nat`.  nom's `IResult<&[u8], T, E>`
is modelled as `Except SipParseError (Bytes × T)` — the first component of a
successful result is the remaining input, exactly as in nom.

External collaborators (the `common` modules, nom combinators, the
`SipRFCHeader` registry and the per-header value grammars, none of which are
under the provided sources) are modelled from the spec at their interfaces;
each such definition carries a `Modelled from the spec:` doc comment.
-/

namespace Sipcore

abbrev Byte := Nat

abbrev Bytes := List Nat

/-- Modelled from the spec: the error type `SipParseError` of the
`common::errorparse` module (not in the provided sources).  The source
constructs labelled errors with `sip_parse_error!(code, message)`; errors
produced internally by nom combinators (e.g. a failed `take_while1`) carry no
such label and are modelled by `nomErr`.  `fuelExhausted` is an artefact of
the fuel-indexed embedding of the orchestrator loop and is produced by no
modelled code path once the fuel is at least the input length (proved below). -/
inductive SipParseError where
  | labeled (code : Nat) (msg : String)
  | nomErr
  | fuelExhausted
deriving DecidableEq

/-- Modelled from the spec: the token-character predicate of the
`common::bnfcore` module (not in the provided sources) — the RFC 3261 token
class: alphanumeric plus `-.!%*_+` backquote `'~`. -/
def is_token_char (c : Nat) : Bool :=
  (48 ≤ c && c ≤ 57) || (65 ≤ c && c ≤ 90) || (97 ≤ c && c ≤ 122) ||
  c == 45 || c == 46 || c == 33 || c == 37 || c == 42 ||
  c == 95 || c == 43 || c == 96 || c == 39 || c == 126

/-- Modelled from the spec: the line-terminator predicate `is_crlf` of
`common::bnfcore` (not in the provided sources): does the input begin with
the two-byte CRLF sequence? -/
def is_crlf (s : Bytes) : Bool :=
  match s with
  | 13 :: 10 :: _ => true
  | _ => false

/-- Linear whitespace byte: space or horizontal tab. -/
def is_wsp (c : Nat) : Bool := c == 32 || c == 9

/-- Modelled from the spec: nom's `character::complete::space0` (external
library): strips the longest leading run of spaces and tabs; it never fails,
so only the remaining input is kept. -/
def space0 (s : Bytes) : Bytes := s.dropWhile is_wsp

/-- Modelled from the spec: nom's `take_while1` (external library): consume
the longest non-empty prefix satisfying the predicate, failing (with a
nom-generated error) when that prefix is empty.  Returns (remaining, taken). -/
def take_while1 (p : Nat → Bool) (s : Bytes) :
    Except SipParseError (Bytes × Bytes) :=
  match s.takeWhile p with
  | [] => .error .nomErr
  | tk => .ok (s.dropWhile p, tk)

/-- Modelled from the spec: `take_sws_token::colon` of the `common` module
(not in the provided sources) — the scanner that skips structured whitespace
around a fixed punctuation byte: skip whitespace, require a colon, skip
whitespace after it. -/
def take_sws_token_colon (s : Bytes) : Except SipParseError (Bytes × Unit) :=
  match s.dropWhile is_wsp with
  | c :: rest => if c == 58 then .ok (rest.dropWhile is_wsp, ()) else .error .nomErr
  | [] => .error .nomErr

/-- Modelled from the spec: `take_sws_token::comma` of the `common` module
(not in the provided sources): skip whitespace, require a comma, skip
whitespace after it. -/
def take_sws_token_comma (s : Bytes) : Except SipParseError (Bytes × Unit) :=
  match s.dropWhile is_wsp with
  | c :: rest => if c == 44 then .ok (rest.dropWhile is_wsp, ()) else .error .nomErr
  | [] => .error .nomErr

/-- UTF-8 continuation byte: `10xxxxxx`. -/
def isCont (c : Nat) : Bool := 128 ≤ c && c < 192

/-- Modelled from the spec: validity of a byte sequence as UTF-8 (RFC 3629),
the check performed by the external `str::from_utf8` / `from_utf8_nom`
collaborators (not in the provided sources): well-formed 1–4 byte sequences,
no overlong encodings, no surrogates, nothing above U+10FFFF. -/
def validUtf8 : Bytes → Bool
  | [] => true
  | c :: rest =>
    if c < 128 then validUtf8 rest
    else if c < 194 then false
    else if c < 224 then
      match rest with
      | c1 :: rest2 => isCont c1 && validUtf8 rest2
      | [] => false
    else if c < 240 then
      match rest with
      | c1 :: c2 :: rest2 =>
        (isCont c1 && isCont c2 &&
          (!(c == 224) || 160 ≤ c1) && (!(c == 237) || c1 ≤ 159)) &&
        validUtf8 rest2
      | _ => false
    else if c < 245 then
      match rest with
      | c1 :: c2 :: c3 :: rest2 =>
        (isCont c1 && isCont c2 && isCont c3 &&
          (!(c == 240) || 144 ≤ c1) && (!(c == 244) || c1 ≤ 143)) &&
        validUtf8 rest2
      | _ => false
    else false

/-- Modelled from the spec: `from_utf8_nom` of `common::nom_wrappers` (not in
the provided sources) — the UTF-8 decode collaborator: byte span → UTF-8
string view (here the byte span itself, validity checked) or a decode
failure.  On success nothing is consumed; the view covers the whole span. -/
def from_utf8_nom (s : Bytes) : Except SipParseError (Bytes × Bytes) :=
  if validUtf8 s then .ok ([], s)
  else .error (.labeled 666 "utf8 decode error")

/-- `HeaderValueType` from the source: all possible shapes of a header
value. -/
inductive HeaderValueType where
  | EmptyValue
  | TokenValue
  | Digit
  | AbsoluteURI
  | QuotedValue
  | AuthentificationInfo
  | CSeq
  | DateString
  | Utf8Text
  | Version
  | AuthorizationDigest
  | CallID
  | CallInfo
  | NameAddr
  | Timestamp
  | RetryAfter
  | UserAgent
  | Via
  | Warning
  | ExtensionHeader
deriving DecidableEq

/-- `HeaderTagType` from the source: the closed set of named sub-fields a
value shape can carry. -/
inductive HeaderTagType where
  | PureValue
  | AinfoType
  | AinfoValue
  | AbsoluteURI
  | AuthSchema
  | Username
  | Domain
  | Realm
  | Nonce
  | DigestUri
  | Dresponse
  | Algorithm
  | Cnonce
  | Opaque
  | Stale
  | QopValue
  | NonceCount
  | Number
  | Method
  | ID
  | Host
  | Port
  | Star
  | DisplayName
  | Seconds
  | Comment
  | Major
  | Minor
  | TimveVal
  | Delay
  | ProtocolName
  | ProtocolVersion
  | ProtocolTransport
  | WarnCode
  | WarnAgent
  | WarnText
deriving DecidableEq

/-- `HeaderTags` from the source: `BTreeMap<HeaderTagType, &[u8]>`, modelled
as an association list of tag/byte-span pairs. -/
abbrev HeaderTags := List (HeaderTagType × Bytes)

/-- `HeaderValue` from the source.  The `SipUri` view type is external (the
URI grammar is out of scope), so the record is parametric in it.  `vstr` is
Rust's `&str` view over the value's bytes, modelled as the byte span itself
(its UTF-8 validity is enforced by `HeaderValue.new`). -/
structure HeaderValue (Uri : Type) where
  vstr : Bytes
  vtype : HeaderValueType
  vtags : Option HeaderTags
  sip_uri : Option Uri
deriving DecidableEq

/-- `HeaderValue::create_empty_value` from the source. -/
def HeaderValue.create_empty_value {Uri : Type} : HeaderValue Uri :=
  { vstr := [], vtype := .EmptyValue, vtags := none, sip_uri := none }

/-- `HeaderValue::new` from the source: validate the span as UTF-8 via
`from_utf8_nom`, then store the view together with the unchanged type, tags
and URI.  The returned first component is `val` itself, as in the source. -/
def HeaderValue.new {Uri : Type} (val : Bytes) (vtype : HeaderValueType)
    (vtags : Option HeaderTags) (sip_uri : Option Uri) :
    Except SipParseError (Bytes × HeaderValue Uri) :=
  match from_utf8_nom val with
  | .error e => .error e
  | .ok (_, vstr) =>
    .ok (val, { vstr := vstr, vtype := vtype, vtags := vtags, sip_uri := sip_uri })

/-- The type of a value-grammar function (`HeaderValueParserFn` from the
source's `traits` module): byte input → remaining input and parsed value. -/
abbrev HeaderValueParserFn (Uri : Type) :=
  Bytes → Except SipParseError (Bytes × HeaderValue Uri)

/-- The type of the generic-parameter grammar `GenericParams::parse`
(external): byte span starting with a semicolon → remaining input and the
parameter list (of external type `Params`). -/
abbrev GenericParamsFn (Params : Type) :=
  Bytes → Except SipParseError (Bytes × Params)

/-- `Header` from the source: one occurrence of a named header.  `name` is
an `Ascii<&str>` in the source (case-insensitive equality wrapper over the
name bytes as written); the generic-parameter list type is external, so the
record is parametric in it. -/
structure Header (Uri Params : Type) where
  name : Bytes
  value : HeaderValue Uri
  parameters : Option Params
  raw_value_param : Bytes
deriving DecidableEq

/-- `Header::new` from the source. -/
def Header.new {Uri Params : Type} (name : Bytes) (value : HeaderValue Uri)
    (parameters : Option Params) (raw_value_param : Bytes) : Header Uri Params :=
  { name := name, value := value, parameters := parameters,
    raw_value_param := raw_value_param }

/-- Modelled from the spec: the closed registry of RFC headers consumed by
`Header::findParser` — `SipRFCHeader::from_str` / `getParser` and
`ExtensionParser::take_value` (none in the provided sources).  `entries`
maps canonical names to classifications (of external type `RFC`),
`getParser` yields each recognized header's value grammar, and
`extensionParser` is the permissive fallback grammar. -/
structure Registry (RFC Uri : Type) where
  entries : List (Bytes × RFC)
  getParser : RFC → HeaderValueParserFn Uri
  extensionParser : HeaderValueParserFn Uri

/-- ASCII lower-casing of one byte. -/
def asciiLower (c : Nat) : Nat := if 65 ≤ c && c ≤ 90 then c + 32 else c

/-- Case-insensitive ASCII equality of byte strings (the comparison behind
`unicase::Ascii` and the registry lookup). -/
def asciiEqI (a b : Bytes) : Bool := a.map asciiLower == b.map asciiLower

/-- Modelled from the spec: `SipRFCHeader::from_str` — case-insensitive
lookup of a header name in the closed registry. -/
def Registry.from_str {RFC Uri : Type} (reg : Registry RFC Uri) (name : Bytes) :
    Option RFC :=
  (reg.entries.find? (fun e => asciiEqI e.1 name)).map Prod.snd

/-- `Header::findParser` from the source: look the name up in the registry;
on a hit return its classification and grammar, otherwise no classification
and the extension grammar. -/
def Header.findParser {RFC Uri : Type} (reg : Registry RFC Uri)
    (header_name : Bytes) : Option RFC × HeaderValueParserFn Uri :=
  match reg.from_str header_name with
  | some rfc_header => (some rfc_header, reg.getParser rfc_header)
  | none => (none, reg.extensionParser)

/-- `Header::take_name` from the source: longest non-empty token prefix via
`take_while1 is_token_char`, then the colon scanner, then a UTF-8 check on
the token (failure of which is the labelled "Bad header name" error). -/
def Header.take_name (source_input : Bytes) :
    Except SipParseError (Bytes × Bytes) :=
  match take_while1 is_token_char source_input with
  | .error e => .error e
  | .ok (input, header_name) =>
    match take_sws_token_colon input with
    | .error e => .error e
    | .ok (input2, _) =>
      if validUtf8 header_name then .ok (input2, header_name)
      else .error (.labeled 1 "Bad header name")

/-- `Header::try_take_parameters` from the source: nothing to do unless the
input starts with a semicolon; otherwise run the generic-parameter grammar
and wrap its result in `some`. -/
def Header.try_take_parameters {Params : Type} (gp : GenericParamsFn Params)
    (input : Bytes) : Except SipParseError (Bytes × Option Params) :=
  match input with
  | [] => .ok (input, none)
  | c :: _ =>
    if c == 59 then
      match gp input with
      | .error e => .error e
      | .ok (input2, parameters) => .ok (input2, some parameters)
    else .ok (input, none)

/-- `Header::take_value` from the source: short-circuit an immediate CRLF to
an empty value; otherwise run the value grammar, skip spaces (`space0`),
require the next byte to be a comma, semicolon, space or the start of CRLF
(end of input or any other byte is an error), and attach generic parameters
exactly when that byte is a semicolon. -/
def Header.take_value {Uri Params : Type} (parser : HeaderValueParserFn Uri)
    (gp : GenericParamsFn Params) (input : Bytes) :
    Except SipParseError (Bytes × (HeaderValue Uri × Option Params)) :=
  if is_crlf input then .ok (input, (HeaderValue.create_empty_value, none))
  else
    match parser input with
    | .error e => .error e
    | .ok (inp0, value) =>
      match space0 inp0 with
      | [] => .error (.labeled 1 "Error parse header value")
      | c :: rest =>
        if !(c == 44) && !(c == 59) && !(c == 32) && !is_crlf (c :: rest) then
          .error (.labeled 2 "Error parse header value")
        else if c == 59 then
          match Header.try_take_parameters gp (c :: rest) with
          | .error e => .error e
          | .ok (inp2, params) => .ok (inp2, (value, params))
        else .ok (c :: rest, (value, none))

/-- The occurrence loop of `Header::parse`, fuel-indexed (the source's
`loop`): take a value+parameters, record a `Header` whose raw span is the
prefix of the loop input not present in the remaining input
(`&inp[..inp.len() - input.len()]`), error when the remaining input is
empty, and on a leading comma consume it (with surrounding whitespace) and
continue with another occurrence; otherwise stop.  `Header::parse` runs it
with fuel `input.length + 1`, which is proved sufficient below. -/
def Header.parseLoop {Uri Params : Type} (parser : HeaderValueParserFn Uri)
    (gp : GenericParamsFn Params) (header_name : Bytes) :
    Nat → Bytes → Except SipParseError (Bytes × List (Header Uri Params))
  | 0, _ => .error .fuelExhausted
  | fuel + 1, inp =>
    match Header.take_value parser gp inp with
    | .error e => .error e
    | .ok (input, (value, params)) =>
      let hd := Header.new header_name value params
        (inp.take (inp.length - input.length))
      match input with
      | [] => .error (.labeled 1 "header input is empty")
      | c :: _ =>
        if c == 44 then
          match take_sws_token_comma input with
          | .error e => .error e
          | .ok (input2, _) =>
            match Header.parseLoop parser gp header_name fuel input2 with
            | .error e => .error e
            | .ok (rest, hs) => .ok (rest, hd :: hs)
        else .ok (input, [hd])

/-- `Header::parse` from the source: take the name, resolve the grammar via
the registry, then run the occurrence loop; the result pairs the optional
RFC classification with the ordered list of `Header` records (the source's
`VecDeque` built with `push_back`, so list order is appearance order). -/
def Header.parse {RFC Uri Params : Type} (reg : Registry RFC Uri)
    (gp : GenericParamsFn Params) (input : Bytes) :
    Except SipParseError (Bytes × (Option RFC × List (Header Uri Params))) :=
  match Header.take_name input with
  | .error e => .error e
  | .ok (input1, header_name) =>
    match Header.findParser reg header_name with
    | (rfc_type, valueParser) =>
      match Header.parseLoop valueParser gp header_name (input1.length + 1) input1 with
      | .error e => .error e
      | .ok (rest, headers) => .ok (rest, (rfc_type, headers))

/-!
## Well-formedness of the external grammars

nom parsers operate on sub-slices of their input: a successful parser
returns, as remaining input, a suffix of the bytes it was given.  The raw
span computation `&inp[..inp.len() - input.len()]` of `Header::parse` is
meaningful precisely under this discipline, so theorems about byte
accounting and termination assume it of the external value and parameter
grammars. -/

/-- A value grammar obeying the nom slice discipline: the remaining input of
a successful parse is a suffix of the input. -/
def SuffixParser {Uri : Type} (parser : HeaderValueParserFn Uri) : Prop :=
  ∀ s r v, parser s = .ok (r, v) → r <:+ s

/-- A generic-parameter grammar obeying the nom slice discipline. -/
def SuffixGp {Params : Type} (gp : GenericParamsFn Params) : Prop :=
  ∀ s r p, gp s = .ok (r, p) → r <:+ s

theorem take_sub_append {r s : Bytes} (h : r <:+ s) :
    s.take (s.length - r.length) ++ r = s := by
  obtain ⟨t, rfl⟩ := h
  rw [List.length_append, Nat.add_sub_cancel, List.take_left]

theorem try_take_parameters_suffix {Params : Type} {gp : GenericParamsFn Params}
    (hg : SuffixGp gp) {s r : Bytes} {po : Option Params}
    (h : Header.try_take_parameters gp s = .ok (r, po)) : r <:+ s := by
  unfold Header.try_take_parameters at h
  split at h
  · cases h; exact List.suffix_refl _
  · split at h
    · split at h
      · cases h
      · cases h
        next heq => exact hg _ _ _ heq
    · cases h; exact List.suffix_refl _

theorem take_value_suffix {Uri Params : Type} {parser : HeaderValueParserFn Uri}
    {gp : GenericParamsFn Params} (hp : SuffixParser parser) (hg : SuffixGp gp)
    {input r : Bytes} {vp : HeaderValue Uri × Option Params}
    (h : Header.take_value parser gp input = .ok (r, vp)) : r <:+ input := by
  unfold Header.take_value at h
  split at h
  · cases h; exact List.suffix_refl _
  · split at h
    · cases h
    · next inp0 value heq =>
      have hinp0 : inp0 <:+ input := hp _ _ _ heq
      split at h
      · cases h
      · next c rest heq2 =>
        have hcr : c :: rest <:+ input := by
          rw [← heq2]
          exact (List.dropWhile_suffix is_wsp).trans hinp0
        split at h
        · cases h
        · split at h
          · split at h
            · cases h
            · next heq3 =>
              cases h
              exact (try_take_parameters_suffix hg heq3).trans hcr
          · cases h; exact hcr

theorem take_sws_token_comma_spec {s r : Bytes} {u : Unit}
    (h : take_sws_token_comma s = .ok (r, u)) : r <:+ s ∧ r.length < s.length := by
  unfold take_sws_token_comma at h
  split at h
  · next c rest heq =>
    split at h
    · cases h
      have hd : c :: rest <:+ s := heq ▸ List.dropWhile_suffix is_wsp
      have hsuf : rest.dropWhile is_wsp <:+ s :=
        (List.dropWhile_suffix is_wsp).trans ((List.suffix_cons c rest).trans hd)
      refine ⟨hsuf, ?_⟩
      have h1 : (rest.dropWhile is_wsp).length ≤ rest.length :=
        (List.dropWhile_suffix is_wsp).length_le
      have h2 : (c :: rest).length ≤ s.length := hd.length_le
      simp only [List.length_cons] at h2
      omega
    · cases h
  · cases h

/-- Interleaved concatenation of the raw value-and-parameter spans of a list
of header records with the separator spans consumed between consecutive
occurrences: `raw₀ ++ sep₀ ++ raw₁ ++ sep₁ ++ … ++ rawₙ` (a separator stands
between two consecutive records only). -/
def spansConcat {Uri Params : Type} :
    List (Header Uri Params) → List Bytes → Bytes
  | [], _ => []
  | h :: hs, seps =>
    match hs, seps with
    | [], _ => h.raw_value_param
    | _ :: _, [] => h.raw_value_param
    | _ :: _, sep :: seps2 => h.raw_value_param ++ sep ++ spansConcat hs seps2

theorem parseLoop_byte_accounting {Uri Params : Type}
    {parser : HeaderValueParserFn Uri} {gp : GenericParamsFn Params}
    (hp : SuffixParser parser) (hg : SuffixGp gp) (name : Bytes) :
    ∀ (fuel : Nat) (inp rest : Bytes) (hs : List (Header Uri Params)),
      Header.parseLoop parser gp name fuel inp = .ok (rest, hs) →
      ∃ seps : List Bytes, seps.length + 1 = hs.length ∧
        spansConcat hs seps ++ rest = inp := by
  intro fuel
  induction fuel with
  | zero => intro inp rest hs h; cases h
  | succ fuel ih =>
    intro inp rest hs h
    unfold Header.parseLoop at h
    split at h
    · cases h
    · next input value params heq =>
      simp only at h
      have hin : input <:+ inp := take_value_suffix hp hg heq
      split at h
      · cases h
      · next c ctail =>
        split at h
        · split at h
          · cases h
          · next input2 u heq2 =>
            split at h
            · cases h
            · next rest2 hs2 heq3 =>
              cases h
              obtain ⟨seps2, hlen2, hcat2⟩ := ih _ _ _ heq3
              obtain ⟨hsuf2, _⟩ := take_sws_token_comma_spec heq2
              refine ⟨(c :: ctail).take ((c :: ctail).length - input2.length) :: seps2,
                ?_, ?_⟩
              · simpa using hlen2
              · match hs2, seps2, hlen2 with
                | h2 :: t2, seps2, _ =>
                  show (Header.new name value params
                      (inp.take (inp.length - (c :: ctail).length))).raw_value_param ++
                      (c :: ctail).take ((c :: ctail).length - input2.length) ++
                      spansConcat (h2 :: t2) seps2 ++ rest = inp
                  have e1 : spansConcat (h2 :: t2) seps2 ++ rest = input2 := hcat2
                  have e2 : (c :: ctail).take ((c :: ctail).length - input2.length) ++
                      input2 = c :: ctail := take_sub_append hsuf2
                  have e3 : inp.take (inp.length - (c :: ctail).length) ++ (c :: ctail) =
                      inp := take_sub_append hin
                  simp only [Header.new]
                  rw [List.append_assoc, List.append_assoc, e1, e2, e3]
        · cases h
          refine ⟨[], rfl, ?_⟩
          show (Header.new name value params
              (inp.take (inp.length - (c :: ctail).length))).raw_value_param ++
              (c :: ctail) = inp
          simpa only [Header.new] using take_sub_append hin

theorem findParser_suffix {RFC Uri : Type} {reg : Registry RFC Uri}
    (hreg : ∀ r, SuffixParser (reg.getParser r))
    (hext : SuffixParser reg.extensionParser) (name : Bytes) :
    SuffixParser (Header.findParser reg name).2 := by
  unfold Header.findParser
  cases h : reg.from_str name with
  | some r => exact hreg r
  | none => exact hext

theorem parseLoop_fuel_irrel {Uri Params : Type}
    {parser : HeaderValueParserFn Uri} {gp : GenericParamsFn Params}
    (hp : SuffixParser parser) (hg : SuffixGp gp) (name : Bytes) :
    ∀ (n : Nat) (inp : Bytes) (f1 f2 : Nat), inp.length = n →
      n < f1 → n < f2 →
      Header.parseLoop parser gp name f1 inp =
        Header.parseLoop parser gp name f2 inp := by
  intro n
  induction n using Nat.strong_induction_on with
  | _ n ih =>
    intro inp f1 f2 hlen h1 h2
    match f1, f2 with
    | a + 1, b + 1 =>
      unfold Header.parseLoop
      cases htv : Header.take_value parser gp inp with
      | error e => simp only [htv]
      | ok p =>
        obtain ⟨input, value, params⟩ := p
        simp only [htv]
        have hin : input <:+ inp := take_value_suffix hp hg htv
        cases input with
        | nil => simp only
        | cons c ctail =>
          by_cases hc : (c == 44) = true
          · simp only [hc, if_true]
            cases hcs : take_sws_token_comma (c :: ctail) with
            | error e => simp only
            | ok q =>
              obtain ⟨input2, u⟩ := q
              dsimp only
              obtain ⟨_, hdec⟩ := take_sws_token_comma_spec hcs
              have hlt : input2.length < n := by
                have := hin.length_le
                omega
              rw [ih input2.length hlt input2 a b rfl (by omega) (by omega)]
          · simp only [hc]
            rfl

/-- The occurrence-group relation, following the spec's words (§4.5, §6):
`OccGroup parser gp name inp rest hs` holds when starting from `inp` the
group consists of comma-separated value occurrences, one `Header` record per
occurrence in left-to-right order, every record carrying the group's single
`name` and its consumed raw span; after each occurrence, when the remaining
input starts with a comma the comma and its surrounding whitespace are
consumed and another occurrence follows, otherwise the group stops with
`rest` as the remaining (non-empty) input. -/
inductive OccGroup {Uri Params : Type} (parser : HeaderValueParserFn Uri)
    (gp : GenericParamsFn Params) (name : Bytes) :
    Bytes → Bytes → List (Header Uri Params) → Prop where
  | last {inp rest : Bytes} {value : HeaderValue Uri} {params : Option Params} :
      Header.take_value parser gp inp = .ok (rest, (value, params)) →
      rest ≠ [] → rest.head? ≠ some 44 →
      OccGroup parser gp name inp rest
        [Header.new name value params (inp.take (inp.length - rest.length))]
  | more {inp mid mid2 rest : Bytes} {value : HeaderValue Uri}
      {params : Option Params} {hs : List (Header Uri Params)} :
      Header.take_value parser gp inp = .ok (mid, (value, params)) →
      mid.head? = some 44 →
      take_sws_token_comma mid = .ok (mid2, ()) →
      OccGroup parser gp name mid2 rest hs →
      OccGroup parser gp name inp rest
        (Header.new name value params (inp.take (inp.length - mid.length)) :: hs)

theorem occGroup_names {Uri Params : Type} {parser : HeaderValueParserFn Uri}
    {gp : GenericParamsFn Params} {name inp rest : Bytes}
    {hs : List (Header Uri Params)} (h : OccGroup parser gp name inp rest hs) :
    ∀ hd ∈ hs, hd.name = name := by
  induction h with
  | last _ _ _ => intro hd hmem; rw [List.mem_singleton] at hmem; subst hmem; rfl
  | more _ _ _ _ ih =>
    intro hd hmem
    rw [List.mem_cons] at hmem
    rcases hmem with rfl | hmem
    · rfl
    · exact ih hd hmem

theorem parseLoop_occGroup {Uri Params : Type}
    {parser : HeaderValueParserFn Uri} {gp : GenericParamsFn Params}
    (name : Bytes) :
    ∀ (fuel : Nat) (inp rest : Bytes) (hs : List (Header Uri Params)),
      Header.parseLoop parser gp name fuel inp = .ok (rest, hs) →
      OccGroup parser gp name inp rest hs := by
  intro fuel
  induction fuel with
  | zero => intro inp rest hs h; cases h
  | succ fuel ih =>
    intro inp rest hs h
    unfold Header.parseLoop at h
    split at h
    · cases h
    · next input value params heq =>
      simp only at h
      split at h
      · cases h
      · next c ctail =>
        split at h
        · next hc =>
          split at h
          · cases h
          · next input2 u heq2 =>
            split at h
            · cases h
            · next rest2 hs2 heq3 =>
              cases h
              have hc44 : c = 44 := by simpa using hc
              subst hc44
              cases u
              exact OccGroup.more heq rfl heq2 (ih _ _ _ heq3)
        · next hc =>
          cases h
          refine OccGroup.last heq (by simp) ?_
          simp only [List.head?_cons, ne_eq, Option.some.injEq]
          simpa using hc

/-!
## Concrete instantiations

Small executable grammars, a registry and inputs used to exercise the claim
theorems on closed runs (the external type parameters are instantiated with
`Unit`). -/

/-- A permissive value grammar of the extension shape: consume every byte up
to the first CR, semicolon or comma. -/
def extValueParser : HeaderValueParserFn Unit := fun s =>
  .ok (s.dropWhile (fun c => !(c == 13) && !(c == 59) && !(c == 44)),
       { vstr := s.takeWhile (fun c => !(c == 13) && !(c == 59) && !(c == 44)),
         vtype := .ExtensionHeader, vtags := none, sip_uri := none })

/-- A token-run value grammar: consume the longest token-character prefix. -/
def tokValueParser : HeaderValueParserFn Unit := fun s =>
  .ok (s.dropWhile is_token_char,
       { vstr := s.takeWhile is_token_char,
         vtype := .TokenValue, vtags := none, sip_uri := none })

/-- A value grammar consuming exactly one byte. -/
def dropOneParser : HeaderValueParserFn Unit := fun s =>
  .ok (s.drop 1,
       { vstr := s.take 1, vtype := .TokenValue, vtags := none, sip_uri := none })

/-- A registry holding the single (case-insensitively matched) name `via`. -/
def sampleRegistry : Registry Unit Unit :=
  { entries := [([118, 105, 97], ())],
    getParser := fun _ => extValueParser,
    extensionParser := extValueParser }

/-- A parameter grammar that always fails. -/
def errGp : GenericParamsFn Unit := fun _ => .error .nomErr

/-- A parameter grammar that consumes its whole input. -/
def emptyGp : GenericParamsFn Unit := fun _ => .ok ([], ())

/-- A parameter grammar whose remaining input begins with a space byte. -/
def spaceGp : GenericParamsFn Unit := fun _ => .ok ([32], ())

theorem extValueParser_suffix : SuffixParser extValueParser := by
  intro s r v h
  unfold extValueParser at h
  cases h
  exact List.dropWhile_suffix _

theorem tokValueParser_suffix : SuffixParser tokValueParser := by
  intro s r v h
  unfold tokValueParser at h
  cases h
  exact List.dropWhile_suffix _

theorem dropOneParser_suffix : SuffixParser dropOneParser := by
  intro s r v h
  unfold dropOneParser at h
  cases h
  exact List.drop_suffix 1 s

theorem errGp_suffix : SuffixGp errGp := by
  intro s r p h
  simp [errGp] at h

theorem emptyGp_suffix : SuffixGp emptyGp := by
  intro s r p h
  unfold emptyGp at h
  cases h
  exact List.nil_suffix

/-!
## Auxiliary facts about the byte classifiers -/

theorem is_crlf_head {s : Bytes} (h : is_crlf s = true) : s.head? = some 13 := by
  unfold is_crlf at h
  split at h
  · rfl
  · cases h

theorem dropWhile_head_not {p : Nat → Bool} {l : Bytes} {c : Nat} {t : Bytes}
    (h : l.dropWhile p = c :: t) : p c = false := by
  induction l with
  | nil => cases h
  | cons a l ih =>
    rw [List.dropWhile_cons] at h
    split at h
    · exact ih h
    · next hp =>
      cases h
      simpa using hp

theorem asciiLower_idem (c : Nat) : asciiLower (asciiLower c) = asciiLower c := by
  by_cases h : (65 ≤ c && c ≤ 90) = true
  · have h2 : ¬((65 ≤ c + 32 && c + 32 ≤ 90) = true) := by
      intro hcl
      simp only [Bool.and_eq_true, decide_eq_true_eq] at h hcl
      omega
    have h3 : asciiLower c = c + 32 := by unfold asciiLower; rw [if_pos h]
    rw [h3]
    unfold asciiLower
    rw [if_neg h2]
  · have h3 : asciiLower c = c := by unfold asciiLower; rw [if_neg h]
    rw [h3]
    exact h3

theorem map_asciiLower_idem (name : Bytes) :
    (name.map asciiLower).map asciiLower = name.map asciiLower := by
  rw [List.map_map]
  exact List.map_congr_left (fun a _ => asciiLower_idem a)

/-!
## Claim theorems -/

/-- Claim C4: on input that begins immediately with a line terminator,
`Header::take_value` succeeds for every value grammar (so without invoking
it), consumes nothing (the remaining input equals the input), and returns
the empty `HeaderValue` — type `EmptyValue`, empty text, no tags, no URI —
with no parameters attached. -/
theorem takeValue_crlf_shortcircuit {Uri Params : Type}
    (parser : HeaderValueParserFn Uri) (gp : GenericParamsFn Params)
    (input : Bytes) (h : is_crlf input = true) :
    Header.take_value parser gp input =
      .ok (input, (HeaderValue.create_empty_value, none)) ∧
    (HeaderValue.create_empty_value : HeaderValue Uri).vtype = .EmptyValue ∧
    (HeaderValue.create_empty_value : HeaderValue Uri).vstr = [] ∧
    (HeaderValue.create_empty_value : HeaderValue Uri).vtags = none ∧
    (HeaderValue.create_empty_value : HeaderValue Uri).sip_uri = none := by
  refine ⟨?_, rfl, rfl, rfl, rfl⟩
  unfold Header.take_value
  rw [h]
  rfl

/-- Witness for the claim C4 theorem at the two-byte CRLF input, with a
value grammar that fails if ever invoked. -/
theorem takeValue_crlf_shortcircuit_witness :
    Header.take_value (fun _ => .error .nomErr : HeaderValueParserFn Unit)
      errGp [13, 10] =
      .ok ([13, 10], (HeaderValue.create_empty_value, none)) :=
  (takeValue_crlf_shortcircuit (fun _ => .error .nomErr) errGp [13, 10] rfl).1

/-- Claim C5: `Header::findParser` is total — it never fails.  A name with
a registry entry (matched case-insensitively: the lookup is invariant under
ASCII lower-casing of the queried name) yields that entry's classification
together with that header's value grammar; any name with no entry yields no
classification paired with the extension grammar. -/
theorem findParser_total_lookup {RFC Uri : Type} (reg : Registry RFC Uri)
    (name : Bytes) :
    (∀ rfc, reg.from_str name = some rfc →
      Header.findParser reg name = (some rfc, reg.getParser rfc)) ∧
    (reg.from_str name = none →
      Header.findParser reg name = (none, reg.extensionParser)) ∧
    reg.from_str (name.map asciiLower) = reg.from_str name := by
  refine ⟨?_, ?_, ?_⟩
  · intro rfc h
    unfold Header.findParser
    rw [h]
  · intro h
    unfold Header.findParser
    rw [h]
  · unfold Registry.from_str
    have hfun : (fun (e : Bytes × RFC) => asciiEqI e.1 (name.map asciiLower)) =
        (fun (e : Bytes × RFC) => asciiEqI e.1 name) := by
      funext e
      unfold asciiEqI
      rw [map_asciiLower_idem]
    rw [hfun]

/-- Witness for the claim C5 theorem: the upper-case name `VIA` hits the
registry entry `via`; the unknown name `X` falls back to no classification
and the extension grammar. -/
theorem findParser_total_lookup_witness :
    Header.findParser sampleRegistry [86, 73, 65] =
      (some (), sampleRegistry.getParser ()) ∧
    Header.findParser sampleRegistry [88] =
      (none, sampleRegistry.extensionParser) :=
  ⟨(findParser_total_lookup sampleRegistry [86, 73, 65]).1 () rfl,
   (findParser_total_lookup sampleRegistry [88]).2.1 rfl⟩

/-- Claim C6: whenever the occurrence loop of `Header::parse` has appended a
`Header` record for an occurrence (a successful `take_value`) and the
remaining input is then empty, the parse fails with the labelled
"header input is empty" error and returns no result. -/
theorem parseLoop_empty_input_error {Uri Params : Type}
    (parser : HeaderValueParserFn Uri) (gp : GenericParamsFn Params)
    (name : Bytes) (fuel : Nat) (inp : Bytes) (value : HeaderValue Uri)
    (params : Option Params)
    (h : Header.take_value parser gp inp = .ok ([], (value, params))) :
    Header.parseLoop parser gp name (fuel + 1) inp =
      .error (.labeled 1 "header input is empty") := by
  unfold Header.parseLoop
  rw [h]

/-- Witness for the claim C6 theorem: on the input `x;` with a one-byte
value grammar and a parameter grammar that consumes the rest, the occurrence
is taken, the remaining input is empty, and the loop fails with the
"header input is empty" error. -/
theorem parseLoop_empty_input_error_witness :
    Header.parseLoop dropOneParser emptyGp [70] 1 [120, 59] =
      .error (.labeled 1 "header input is empty") :=
  parseLoop_empty_input_error dropOneParser emptyGp [70] 0 [120, 59]
    { vstr := [120], vtype := .TokenValue, vtags := none, sip_uri := none }
    (some ()) rfl

/-- Claim C7: `HeaderValue::new` fails exactly when the byte span is not
valid UTF-8 (with a decode error and no value produced), and on success the
constructed value's `vstr` is the string view over exactly the given span,
with the given type, tags and URI stored unchanged. -/
theorem headerValueNew_utf8 {Uri : Type} (val : Bytes)
    (vtype : HeaderValueType) (vtags : Option HeaderTags)
    (sip_uri : Option Uri) :
    (validUtf8 val = false →
      HeaderValue.new val vtype vtags sip_uri =
        .error (.labeled 666 "utf8 decode error")) ∧
    (validUtf8 val = true →
      HeaderValue.new val vtype vtags sip_uri =
        .ok (val, { vstr := val, vtype := vtype, vtags := vtags,
                    sip_uri := sip_uri })) := by
  constructor
  · intro h
    unfold HeaderValue.new from_utf8_nom
    rw [h]
    rfl
  · intro h
    unfold HeaderValue.new from_utf8_nom
    rw [h]
    rfl

/-- Witness for the claim C7 theorem: a lone UTF-8 lead byte is rejected
with the decode error; the two-byte sequence for U+00E9 is accepted and
stored unchanged. -/
theorem headerValueNew_utf8_witness :
    HeaderValue.new [195] HeaderValueType.TokenValue none
      (none : Option Unit) = .error (.labeled 666 "utf8 decode error") ∧
    HeaderValue.new [195, 169] HeaderValueType.TokenValue none
      (none : Option Unit) =
      .ok ([195, 169], { vstr := [195, 169], vtype := .TokenValue,
                         vtags := none, sip_uri := none }) :=
  ⟨(headerValueNew_utf8 [195] .TokenValue none none).1 rfl,
   (headerValueNew_utf8 [195, 169] .TokenValue none none).2 rfl⟩

/-- A fully instantiated extension-shaped record used in closed runs. -/
def extHdr (nm v raw : Bytes) : Header Unit Unit :=
  Header.new nm
    { vstr := v, vtype := .ExtensionHeader, vtags := none, sip_uri := none }
    none raw

/-- Claim C1: for every input on which `Header::parse` succeeds (under the
nom slice discipline for the external grammars), the concatenation of the
`raw_value_param` spans of the produced `Header` records, interleaved with
the comma-and-whitespace separator spans consumed between occurrences,
equals exactly the prefix of the input that `parse` consumed after the
name/colon — no byte left out and no byte covered twice. -/
theorem headerParse_byte_accounting {RFC Uri Params : Type}
    {reg : Registry RFC Uri} {gp : GenericParamsFn Params}
    (hreg : ∀ r, SuffixParser (reg.getParser r))
    (hext : SuffixParser reg.extensionParser) (hg : SuffixGp gp)
    {input rest : Bytes} {rfc : Option RFC} {hs : List (Header Uri Params)}
    (hps : Header.parse reg gp input = .ok (rest, (rfc, hs))) :
    ∃ inp0 nm : Bytes, Header.take_name input = .ok (inp0, nm) ∧
      ∃ seps : List Bytes, seps.length + 1 = hs.length ∧
        spansConcat hs seps ++ rest = inp0 := by
  unfold Header.parse at hps
  split at hps
  · cases hps
  · next inp0 nm hnm =>
    refine ⟨inp0, nm, hnm, ?_⟩
    rcases hfp : Header.findParser reg nm with ⟨rfc2, vparser⟩
    rw [hfp] at hps
    dsimp only at hps
    split at hps
    · cases hps
    · next rest2 hs2 hloop =>
      cases hps
      have hsp : SuffixParser vparser := by
        have h := findParser_suffix hreg hext nm
        rw [hfp] at h
        exact h
      exact parseLoop_byte_accounting hsp hg nm _ _ _ _ hloop

/-- Witness for the claim C1 theorem on the input `Via:a,b` followed by
CRLF: the two raw spans `a` and `b` plus the one separator span `,`
reconstruct the consumed prefix `a,b`. -/
theorem headerParse_byte_accounting_witness :
    ∃ inp0 nm : Bytes,
      Header.take_name [86, 105, 97, 58, 97, 44, 98, 13, 10] =
        .ok (inp0, nm) ∧
      ∃ seps : List Bytes,
        seps.length + 1 =
          [extHdr [86, 105, 97] [97] [97],
           extHdr [86, 105, 97] [98] [98]].length ∧
        spansConcat
          [extHdr [86, 105, 97] [97] [97],
           extHdr [86, 105, 97] [98] [98]] seps ++ [13, 10] = inp0 :=
  @headerParse_byte_accounting Unit Unit Unit sampleRegistry errGp
    (fun _ => extValueParser_suffix) extValueParser_suffix errGp_suffix
    [86, 105, 97, 58, 97, 44, 98, 13, 10] [13, 10] (some ())
    [extHdr [86, 105, 97] [97] [97],
     extHdr [86, 105, 97] [98] [98]] rfl

/-- Claim C2: for every input on which `Header::parse` succeeds, the
returned sequence is exactly one `Header` record per comma-separated
occurrence in left-to-right order (the `OccGroup` relation), every record
carries the single name recognized by `take_name` at the start of the
group, and after each occurrence a leading comma (with surrounding
whitespace) is consumed before another occurrence while any other remaining
input stops the loop. -/
theorem headerParse_occurrences {RFC Uri Params : Type}
    {reg : Registry RFC Uri} {gp : GenericParamsFn Params}
    {input rest : Bytes} {rfc : Option RFC} {hs : List (Header Uri Params)}
    (hps : Header.parse reg gp input = .ok (rest, (rfc, hs))) :
    ∃ inp0 nm : Bytes, Header.take_name input = .ok (inp0, nm) ∧
      (∀ hd ∈ hs, hd.name = nm) ∧
      OccGroup (Header.findParser reg nm).2 gp nm inp0 rest hs := by
  unfold Header.parse at hps
  split at hps
  · cases hps
  · next inp0 nm hnm =>
    refine ⟨inp0, nm, hnm, ?_⟩
    rcases hfp : Header.findParser reg nm with ⟨rfc2, vparser⟩
    rw [hfp] at hps
    dsimp only at hps
    split at hps
    · cases hps
    · next rest2 hs2 hloop =>
      cases hps
      have hocc := parseLoop_occGroup nm _ _ _ _ hloop
      exact ⟨occGroup_names hocc, hocc⟩

/-- Witness for the claim C2 theorem on the input `A:b, c` followed by
CRLF: two records, both named `A`, in order. -/
theorem headerParse_occurrences_witness :
    ∃ inp0 nm : Bytes,
      Header.take_name [65, 58, 98, 44, 32, 99, 13, 10] = .ok (inp0, nm) ∧
      (∀ hd ∈ [extHdr [65] [98] [98], extHdr [65] [99] [99]],
        hd.name = nm) ∧
      OccGroup (Header.findParser sampleRegistry nm).2 errGp nm inp0 [13, 10]
        [extHdr [65] [98] [98], extHdr [65] [99] [99]] :=
  @headerParse_occurrences Unit Unit Unit sampleRegistry errGp
    [65, 58, 98, 44, 32, 99, 13, 10] [13, 10] none
    [extHdr [65] [98] [98], extHdr [65] [99] [99]] rfl

theorem take_sws_token_comma_no_fuel (s : Bytes) :
    take_sws_token_comma s ≠ .error .fuelExhausted := by
  unfold take_sws_token_comma
  split
  · split
    · exact fun h => by cases h
    · exact fun h => by cases h
  · exact fun h => by cases h

theorem try_take_parameters_no_fuel {Params : Type} {gp : GenericParamsFn Params}
    (hgr : ∀ s, gp s ≠ .error .fuelExhausted) (input : Bytes) :
    Header.try_take_parameters gp input ≠ .error .fuelExhausted := by
  unfold Header.try_take_parameters
  split
  · exact fun h => by cases h
  · split
    · split
      · next e hgp =>
        intro h
        cases h
        exact hgr _ hgp
      · exact fun h => by cases h
    · exact fun h => by cases h

theorem take_value_no_fuel {Uri Params : Type}
    {parser : HeaderValueParserFn Uri} {gp : GenericParamsFn Params}
    (hpr : ∀ s, parser s ≠ .error .fuelExhausted)
    (hgr : ∀ s, gp s ≠ .error .fuelExhausted) (input : Bytes) :
    Header.take_value parser gp input ≠ .error .fuelExhausted := by
  unfold Header.take_value
  split
  · exact fun h => by cases h
  · cases hpv : parser input with
    | error e =>
      intro h
      cases h
      exact hpr input hpv
    | ok q =>
      obtain ⟨inp0, v⟩ := q
      dsimp only
      cases hsp : space0 inp0 with
      | nil => exact fun h => by cases h
      | cons c rest =>
        dsimp only
        split_ifs with h1 h2
        · exact fun h => by cases h
        · cases htt : Header.try_take_parameters gp (c :: rest) with
          | error e =>
            dsimp only
            intro h
            cases h
            exact try_take_parameters_no_fuel hgr _ htt
          | ok q2 =>
            obtain ⟨i2, p2⟩ := q2
            exact fun h => by cases h
        · exact fun h => by cases h

theorem parseLoop_no_fuel {Uri Params : Type}
    {parser : HeaderValueParserFn Uri} {gp : GenericParamsFn Params}
    (hp : SuffixParser parser) (hg : SuffixGp gp)
    (hpr : ∀ s, parser s ≠ .error .fuelExhausted)
    (hgr : ∀ s, gp s ≠ .error .fuelExhausted) (name : Bytes) :
    ∀ (n : Nat) (inp : Bytes) (fuel : Nat), inp.length = n → n < fuel →
      Header.parseLoop parser gp name fuel inp ≠ .error .fuelExhausted := by
  intro n
  induction n using Nat.strong_induction_on with
  | _ n ih =>
    intro inp fuel hlen hf
    match fuel with
    | a + 1 =>
      unfold Header.parseLoop
      cases htv : Header.take_value parser gp inp with
      | error e =>
        intro h
        cases h
        exact take_value_no_fuel hpr hgr inp htv
      | ok p =>
        obtain ⟨input, value, params⟩ := p
        dsimp only
        have hin : input <:+ inp := take_value_suffix hp hg htv
        cases input with
        | nil => exact fun h => by cases h
        | cons c ctail =>
          by_cases hc : (c == 44) = true
          · simp only [hc]
            cases hcs : take_sws_token_comma (c :: ctail) with
            | error e =>
              intro h
              cases h
              exact take_sws_token_comma_no_fuel _ hcs
            | ok q =>
              obtain ⟨input2, u⟩ := q
              dsimp only
              obtain ⟨_, hdec⟩ := take_sws_token_comma_spec hcs
              have hlt : input2.length < n := by
                have := hin.length_le
                omega
              cases hrec : Header.parseLoop parser gp name a input2 with
              | error e =>
                intro h
                cases h
                exact ih input2.length hlt input2 a rfl (by omega) hrec
              | ok q2 =>
                obtain ⟨r, hs⟩ := q2
                exact fun h => by cases h
          · simp only [hc]
            exact fun h => by cases h

theorem extValueParser_real : ∀ s, extValueParser s ≠ .error .fuelExhausted := by
  intro s h
  simp [extValueParser] at h

theorem errGp_real : ∀ s, errGp s ≠ .error .fuelExhausted := by
  intro s h
  simp [errGp] at h

/-- Claim C9: `Header::parse` terminates in work bounded by the input
length.  Under the nom slice discipline (and with external grammars never
producing the embedding's artificial fuel-exhaustion sentinel) every
continuing iteration of the occurrence loop consumes at least one byte (the
separating comma), so for any fuel exceeding the input length the
fuel-indexed loop completes — it never returns the fuel-exhaustion
sentinel — and its result equals that of the canonical fuel
`input length + 1` used by `Header.parse`. -/
theorem parseLoop_terminates {Uri Params : Type}
    {parser : HeaderValueParserFn Uri} {gp : GenericParamsFn Params}
    (hp : SuffixParser parser) (hg : SuffixGp gp)
    (hpr : ∀ s, parser s ≠ .error .fuelExhausted)
    (hgr : ∀ s, gp s ≠ .error .fuelExhausted) (name inp : Bytes)
    (fuel : Nat) (hf : inp.length < fuel) :
    Header.parseLoop parser gp name fuel inp =
      Header.parseLoop parser gp name (inp.length + 1) inp ∧
    Header.parseLoop parser gp name fuel inp ≠ .error .fuelExhausted :=
  ⟨parseLoop_fuel_irrel hp hg name inp.length inp fuel (inp.length + 1) rfl hf
     (Nat.lt_succ_self _),
   parseLoop_no_fuel hp hg hpr hgr name inp.length inp fuel rfl hf⟩

/-- Witness for the claim C9 theorem: on a five-byte two-occurrence input,
fuel 50 terminates — it does not exhaust the fuel — and computes the same
result as the canonical fuel 6. -/
theorem parseLoop_terminates_witness :
    Header.parseLoop extValueParser errGp [70] 50 [97, 44, 98, 13, 10] =
      Header.parseLoop extValueParser errGp [70] 6 [97, 44, 98, 13, 10] ∧
    Header.parseLoop extValueParser errGp [70] 50 [97, 44, 98, 13, 10] ≠
      .error .fuelExhausted :=
  parseLoop_terminates extValueParser_suffix errGp_suffix extValueParser_real
    errGp_real [70] [97, 44, 98, 13, 10] 50 (by decide)

theorem try_take_parameters_semi {Params : Type} (gp : GenericParamsFn Params)
    (t : Bytes) :
    Header.try_take_parameters gp (59 :: t) =
      match gp (59 :: t) with
      | .error e => .error e
      | .ok (i, p) => .ok (i, some p) := rfl

/-- Claim C3: when the input does not immediately start with a line
terminator, `Header::take_value` invokes the value grammar, skips spaces,
and then fails with a parse error unless the next byte is a comma, a
semicolon, a space or the start of a line terminator — exhausted input at
that point also fails; when the next byte is a semicolon the
generic-parameter list is parsed and attached, otherwise no parameters are
attached. -/
theorem takeValue_terminator_check {Uri Params : Type}
    (parser : HeaderValueParserFn Uri) (gp : GenericParamsFn Params)
    (input inp1 : Bytes) (v : HeaderValue Uri)
    (hcrlf : is_crlf input = false)
    (hp : parser input = .ok (inp1, v)) :
    (space0 inp1 = [] →
      Header.take_value parser gp input =
        .error (.labeled 1 "Error parse header value")) ∧
    (∀ c t, space0 inp1 = c :: t →
      c ≠ 44 → c ≠ 59 → c ≠ 32 → is_crlf (c :: t) = false →
      Header.take_value parser gp input =
        .error (.labeled 2 "Error parse header value")) ∧
    (∀ t, space0 inp1 = 59 :: t →
      Header.take_value parser gp input =
        (match gp (59 :: t) with
         | .ok (inp3, ps) => .ok (inp3, (v, some ps))
         | .error e => .error e)) ∧
    (∀ c t, space0 inp1 = c :: t → c ≠ 59 →
      (c = 44 ∨ c = 32 ∨ is_crlf (c :: t) = true) →
      Header.take_value parser gp input = .ok (c :: t, (v, none))) := by
  have hred : Header.take_value parser gp input =
      (match space0 inp1 with
       | [] => .error (.labeled 1 "Error parse header value")
       | c :: t =>
         if !(c == 44) && !(c == 59) && !(c == 32) && !is_crlf (c :: t) then
           .error (.labeled 2 "Error parse header value")
         else if c == 59 then
           match Header.try_take_parameters gp (c :: t) with
           | .error e => .error e
           | .ok (inp2, params) => .ok (inp2, (v, params))
         else .ok (c :: t, (v, none))) := by
    unfold Header.take_value
    rw [hcrlf, hp]
    rfl
  refine ⟨?_, ?_, ?_, ?_⟩
  · intro h0
    rw [hred, h0]
  · intro c t hct h44 h59 h32 hcr
    rw [hred, hct]
    dsimp only
    have e1 : (c == 44) = false := beq_eq_false_iff_ne.mpr h44
    have e2 : (c == 59) = false := beq_eq_false_iff_ne.mpr h59
    have e3 : (c == 32) = false := beq_eq_false_iff_ne.mpr h32
    rw [e1, e2, e3, hcr]
    rfl
  · intro t hct
    rw [hred, hct]
    dsimp only
    rw [try_take_parameters_semi]
    cases hgp : gp (59 :: t) with
    | error e => rfl
    | ok q =>
      obtain ⟨inp3, ps⟩ := q
      rfl
  · intro c t hct h59 hdisj
    rw [hred, hct]
    have e2 : (c == 59) = false := beq_eq_false_iff_ne.mpr h59
    rcases hdisj with rfl | rfl | hcr
    · rfl
    · rfl
    · simp only [hcr, Bool.not_true, Bool.and_false]
      rw [e2]
      rfl

/-- Witness for the claim C3 theorem: a value stopped in front of the
disallowed byte `#` makes `take_value` fail with the terminator error. -/
theorem takeValue_terminator_check_witness :
    Header.take_value tokValueParser errGp [120, 35] =
      .error (.labeled 2 "Error parse header value") :=
  ((takeValue_terminator_check tokValueParser errGp [120, 35] [35]
      { vstr := [120], vtype := .TokenValue, vtags := none, sip_uri := none }
      rfl rfl).2.1) 35 [] rfl (by decide) (by decide) (by decide) rfl

/-- Claim C8: `Header::take_name` consumes the longest prefix of token
characters and then the colon separator with its surrounding whitespace,
returning the token and the remaining input; it fails (with the token
scanner's name error) when zero token characters are consumed, it fails
with the labelled "Bad header name" error when the token bytes are not
valid UTF-8, and it propagates the colon scanner's error when the
separator is absent. -/
theorem takeName_contract (source_input : Bytes) :
    (source_input.takeWhile is_token_char = [] →
      ∃ e, Header.take_name source_input = .error e) ∧
    (source_input.takeWhile is_token_char ≠ [] →
      (∀ e, take_sws_token_colon (source_input.dropWhile is_token_char) =
          .error e →
        Header.take_name source_input = .error e) ∧
      (∀ rest, take_sws_token_colon (source_input.dropWhile is_token_char) =
          .ok (rest, ()) →
        validUtf8 (source_input.takeWhile is_token_char) = false →
        Header.take_name source_input =
          .error (.labeled 1 "Bad header name")) ∧
      (∀ rest, take_sws_token_colon (source_input.dropWhile is_token_char) =
          .ok (rest, ()) →
        validUtf8 (source_input.takeWhile is_token_char) = true →
        Header.take_name source_input =
          .ok (rest, source_input.takeWhile is_token_char))) := by
  constructor
  · intro h0
    refine ⟨.nomErr, ?_⟩
    unfold Header.take_name take_while1
    rw [h0]
  · intro hne
    have htw : take_while1 is_token_char source_input =
        .ok (source_input.dropWhile is_token_char,
             source_input.takeWhile is_token_char) := by
      unfold take_while1
      rcases hcase : source_input.takeWhile is_token_char with _ | ⟨a, t⟩
      · exact absurd hcase hne
      · rfl
    refine ⟨?_, ?_, ?_⟩
    · intro e hcol
      unfold Header.take_name
      rw [htw]
      dsimp only
      rw [hcol]
    · intro rest hcol hbad
      unfold Header.take_name
      rw [htw]
      dsimp only
      rw [hcol, hbad]
      rfl
    · intro rest hcol hgood
      unfold Header.take_name
      rw [htw]
      dsimp only
      rw [hcol, hgood]
      rfl

/-- Witness for the claim C8 theorem: `Via: x` (colon followed by a space)
yields the token `Via` and the remaining input `x`. -/
theorem takeName_contract_witness :
    Header.take_name [86, 105, 97, 58, 32, 120] = .ok ([120], [86, 105, 97]) :=
  ((takeName_contract [86, 105, 97, 58, 32, 120]).2 (by decide)).2.2
    [120] rfl rfl

/-- Claim C10 counterexample: `take_value` succeeds on the input `x;` with a
one-byte value grammar and a parameter grammar (standing for the external
`GenericParams::parse`, whose remaining input the spec leaves
unconstrained) that leaves a space-leading remainder — the returned
remaining input begins with a space byte. -/
theorem takeValue_space_counterexample :
    Header.take_value dropOneParser spaceGp [120, 59] =
      .ok ([32], ({ vstr := [120], vtype := .TokenValue, vtags := none,
                    sip_uri := none }, some ())) ∧
    ([32] : Bytes).head? = some 32 :=
  ⟨rfl, rfl⟩

/-- Claim C10 (amended): for every input and value grammar, a successful
`take_value` that attaches no parameters leaves remaining input that never
begins with a space byte — the space alternative of the terminator
whitelist is unreachable because the space-skip runs before the check — and
always starts at a comma or a line terminator; a return that attaches
parameters leaves whatever remaining input the generic-parameter grammar
produced. -/
theorem takeValue_no_params_terminator {Uri Params : Type}
    (parser : HeaderValueParserFn Uri) (gp : GenericParamsFn Params)
    {input rest : Bytes} {v : HeaderValue Uri}
    (h : Header.take_value parser gp input = .ok (rest, (v, none))) :
    rest.head? ≠ some 32 ∧ (rest.head? = some 44 ∨ is_crlf rest = true) := by
  unfold Header.take_value at h
  split at h
  · next hcr =>
    cases h
    refine ⟨?_, Or.inr hcr⟩
    rw [is_crlf_head hcr]
    simp
  · split at h
    · cases h
    · next inp0 value hpeq =>
      split at h
      · cases h
      · next c t hsp =>
        have hwsp : is_wsp c = false := dropWhile_head_not hsp
        split at h
        · cases h
        · next hfail =>
          split at h
          · next hc59 =>
            split at h
            · cases h
            · next inp2 params2 htt =>
              cases h
              have hc : c = 59 := by simpa using hc59
              subst hc
              rw [try_take_parameters_semi] at htt
              split at htt
              · cases htt
              · cases htt
          · next hc59f =>
            cases h
            have hw : ¬ c = 32 ∧ ¬ c = 9 := by simpa [is_wsp] using hwsp
            constructor
            · simpa using hw.1
            · by_cases hc44 : c = 44
              · subst hc44
                left
                rfl
              · right
                by_contra hcr2
                apply hfail
                have e1 : (c == 44) = false := beq_eq_false_iff_ne.mpr hc44
                have e2 : (c == 59) = false := by simpa using hc59f
                have e3 : (c == 32) = false := beq_eq_false_iff_ne.mpr hw.1
                have e4 : is_crlf (c :: t) = false := by simpa using hcr2
                rw [e1, e2, e3, e4]
                rfl

/-- Witness for the claim C10 amended theorem: a successful no-parameter
return on `a,b` leaves the remaining input at the comma. -/
theorem takeValue_no_params_terminator_witness :
    ([44, 98] : Bytes).head? ≠ some 32 ∧
      (([44, 98] : Bytes).head? = some 44 ∨ is_crlf [44, 98] = true) :=
  @takeValue_no_params_terminator Unit Unit dropOneParser errGp
    [97, 44, 98] [44, 98]
    { vstr := [97], vtype := .TokenValue, vtags := none, sip_uri := none } rfl

end Sipcore
